import Mathlib

/-!
Shallow embedding of the core of the jormungandr node sources:
peer-to-peer communication map (`src/network/p2p/comm.rs`), block intake
router (`src/blockchain/process.rs`) and fragment selection engine
(`src/fragment/selection.rs`), together with theorems checking the
natural-language specification against these definitions.

Machine maps (`HashMap`) are embedded as association lists with
first-occurrence lookup; mutation under the peer-map mutex is embedded as
explicit state passing.  Payload types (`Header`, `Message`, `Gossip`,
fragments, blocks) are opaque in the source and appear here as type
parameters.
-/

set_option maxHeartbeats 1000000

namespace Jorm

variable {T H HH M G F Chain Block : Type}

/-- Buffer size of a subscription stream (source constant `BUFFER_LEN`). -/
def BUFFER_LEN : Nat := 8

/-- Kinds of propagation errors (source enum `ErrorKind`). -/
inductive ErrorKind where
  | NotSubscribed
  | SubscriptionClosed
  | StreamOverflow
  | Unexpected
deriving DecidableEq

/-- Propagation error surrendering the unsent item (source `PropagateError`). -/
structure PropagateError (T : Type) where
  kind : ErrorKind
  item : T
deriving DecidableEq

/-- Kind of a low-level channel send error, mirroring the
`is_disconnected` / `is_full` predicates of the mpsc send error, with a
defensive third case for the source's catch-all branch. -/
inductive SendErrorKind where
  | disconnected
  | full
  | other
deriving DecidableEq

/-- Low-level channel send error carrying the item back (`e.into_inner()`). -/
structure SendError (T : Type) where
  kind : SendErrorKind
  item : T
deriving DecidableEq

def SendError.is_disconnected (e : SendError T) : Bool :=
  match e.kind with
  | SendErrorKind.disconnected => true
  | _ => false

def SendError.is_full (e : SendError T) : Bool :=
  match e.kind with
  | SendErrorKind.full => true
  | _ => false

/-- Modelled from the spec: the producer end of the bounded subscription
channel of §4.1 (the `futures` mpsc channel implementation is not part of
this repository's sources).  The channel holds up to `BUFFER_LEN` pending
items; dropping the consumer is observed by the producer as
`disconnected`.  Only the producer side is modelled; the claims under
check concern a consumer that never polls. -/
structure Sender (T : Type) where
  buffer : List T
  disconnected : Bool
deriving DecidableEq

/-- Modelled from the spec: non-blocking enqueue of §4.1 — `full` when the
buffer already holds `BUFFER_LEN` items, `disconnected` when the consumer
was dropped, otherwise the item is appended in FIFO order. -/
def Sender.try_send (s : Sender T) (item : T) :
    Except (SendError T) Unit × Sender T :=
  if s.disconnected then (Except.error ⟨SendErrorKind.disconnected, item⟩, s)
  else if BUFFER_LEN ≤ s.buffer.length then
    (Except.error ⟨SendErrorKind.full, item⟩, s)
  else (Except.ok (), ⟨s.buffer ++ [item], s.disconnected⟩)

/-- Per-topic subscription state (source enum `SubscriptionState`). -/
inductive SubscriptionState (T : Type) where
  | NotSubscribed
  | Subscribed (sender : Sender T)
deriving DecidableEq

/-- Source `CommHandle`: producer state of one topic towards one peer. -/
structure CommHandle (T : Type) where
  state : SubscriptionState T
deriving DecidableEq

/-- Source `impl Default for CommHandle`: fresh handle, not subscribed. -/
def CommHandle.default : CommHandle T :=
  ⟨SubscriptionState.NotSubscribed⟩

/-- Source `CommHandle::subscribe`: installs a fresh channel, superseding
any previous subscription.  The consumer end handed out is not modelled. -/
def CommHandle.subscribe (_h : CommHandle T) : CommHandle T :=
  ⟨SubscriptionState.Subscribed ⟨[], false⟩⟩

/-- Source `CommHandle::try_send`: fails with `NotSubscribed` when no
subscription is installed, otherwise maps the channel error onto
`SubscriptionClosed` / `StreamOverflow` / `Unexpected`. -/
def CommHandle.try_send (h : CommHandle T) (item : T) :
    Except (PropagateError T) Unit × CommHandle T :=
  match h.state with
  | SubscriptionState.NotSubscribed =>
      (Except.error ⟨ErrorKind.NotSubscribed, item⟩, h)
  | SubscriptionState.Subscribed sender =>
      match Sender.try_send sender item with
      | (Except.ok _, sender') =>
          (Except.ok (), ⟨SubscriptionState.Subscribed sender'⟩)
      | (Except.error e, sender') =>
          (Except.error
            (if e.is_disconnected then ⟨ErrorKind.SubscriptionClosed, e.item⟩
             else if e.is_full then ⟨ErrorKind.StreamOverflow, e.item⟩
             else ⟨ErrorKind.Unexpected, e.item⟩),
           ⟨SubscriptionState.Subscribed sender'⟩)

/-- Iterated `try_send` of a list of items on one handle, used to state
the bounded-buffering property. -/
def sendAll (h : CommHandle T) (items : List T) :
    List (Except (PropagateError T) Unit) × CommHandle T :=
  match items with
  | [] => ([], h)
  | x :: xs =>
      ((h.try_send x).1 :: (sendAll (h.try_send x).2 xs).1,
       (sendAll (h.try_send x).2 xs).2)

/-- Source `PeerComms`: the four topic channels of one peer. -/
structure PeerComms (H HH M G : Type) where
  block_announcements : CommHandle H
  block_solicitations : CommHandle (List HH)
  messages : CommHandle M
  gossip : CommHandle G
deriving DecidableEq

/-- Source `PeerComms::new` (via `Default`): all four topics not subscribed. -/
def PeerComms.new : PeerComms H HH M G :=
  ⟨CommHandle.default, CommHandle.default, CommHandle.default, CommHandle.default⟩

def PeerComms.try_send_block_announcement (c : PeerComms H HH M G) (header : H) :
    Except (PropagateError H) Unit × PeerComms H HH M G :=
  ((c.block_announcements.try_send header).1,
   { c with block_announcements := (c.block_announcements.try_send header).2 })

def PeerComms.try_send_message (c : PeerComms H HH M G) (message : M) :
    Except (PropagateError M) Unit × PeerComms H HH M G :=
  ((c.messages.try_send message).1,
   { c with messages := (c.messages.try_send message).2 })

def PeerComms.try_send_gossip (c : PeerComms H HH M G) (gossip : G) :
    Except (PropagateError G) Unit × PeerComms H HH M G :=
  ((c.gossip.try_send gossip).1,
   { c with gossip := (c.gossip.try_send gossip).2 })

/-- Peer identifier (source `topology::NodeId`): opaque, hashable. -/
abbrev NodeId := Nat

/-- Source `topology::Node`, reduced to the only part the peer map reads:
its identifier `node.id()`. -/
structure Node where
  id : NodeId
deriving DecidableEq

/-- First-occurrence lookup in an association list (embeds `HashMap` get). -/
def listLookup (m : List (Nat × α)) (k : Nat) : Option α :=
  match m with
  | [] => none
  | (k', v) :: rest => if k' = k then some v else listLookup rest k

/-- Replace the value at the first occurrence of a key; no-op when the key
is absent (embeds mutation through an occupied `HashMap` entry). -/
def listUpdate (m : List (Nat × α)) (k : Nat) (v : α) : List (Nat × α) :=
  match m with
  | [] => []
  | (k', v') :: rest =>
      if k' = k then (k', v) :: rest else (k', v') :: listUpdate rest k v

/-- Remove the first occurrence of a key (embeds `entry.remove_entry()`). -/
def listErase (m : List (Nat × α)) (k : Nat) : List (Nat × α) :=
  match m with
  | [] => []
  | (k', v') :: rest =>
      if k' = k then rest else (k', v') :: listErase rest k

/-- The state guarded by the peer map's mutex: `HashMap<NodeId, PeerComms>`. -/
abbrev PeerMapState (H HH M G : Type) := List (NodeId × PeerComms H HH M G)

/-- Source `ensure_peer_comms`: `map.entry(id).or_insert(PeerComms::new())`.
Returns the record found or freshly inserted, with the updated map. -/
def ensure_peer_comms (m : PeerMapState H HH M G) (id : NodeId) :
    PeerComms H HH M G × PeerMapState H HH M G :=
  match listLookup m id with
  | some c => (c, m)
  | none => (PeerComms.new, m ++ [(id, PeerComms.new)])

/-- The fan-out filter loop inside source `PeerMap::propagate_with`:
for each node in order, a vacant entry marks the node unreached; an
occupied entry gets the send applied — on success the mutated record is
kept, on any error the entire record is removed and the node marked
unreached. -/
def propagateLoop
    (f : PeerComms H HH M G → Except (PropagateError T) Unit × PeerComms H HH M G) :
    List Node → PeerMapState H HH M G → List Node × PeerMapState H HH M G
  | [], m => ([], m)
  | n :: ns, m =>
      match listLookup m n.id with
      | none =>
          (n :: (propagateLoop f ns m).1, (propagateLoop f ns m).2)
      | some comms =>
          match f comms with
          | (Except.ok _, comms') => propagateLoop f ns (listUpdate m n.id comms')
          | (Except.error _, _) =>
              (n :: (propagateLoop f ns (listErase m n.id)).1,
               (propagateLoop f ns (listErase m n.id)).2)

/-- Source `PeerMap::propagate_with`: runs the fan-out loop and returns
`Ok(())` when the unreached list is empty, else `Err(unreached_nodes)`. -/
def propagate_with
    (f : PeerComms H HH M G → Except (PropagateError T) Unit × PeerComms H HH M G)
    (nodes : List Node) (m : PeerMapState H HH M G) :
    Except (List Node) Unit × PeerMapState H HH M G :=
  (if (propagateLoop f nodes m).1.isEmpty then Except.ok ()
   else Except.error (propagateLoop f nodes m).1,
   (propagateLoop f nodes m).2)

/-- Source `PeerMap::propagate_block`. -/
def propagate_block (m : PeerMapState H HH M G) (nodes : List Node) (header : H) :
    Except (List Node) Unit × PeerMapState H HH M G :=
  propagate_with (fun c => c.try_send_block_announcement header) nodes m

/-- Source `PeerMap::propagate_message`. -/
def propagate_message (m : PeerMapState H HH M G) (nodes : List Node) (message : M) :
    Except (List Node) Unit × PeerMapState H HH M G :=
  propagate_with (fun c => c.try_send_message message) nodes m

/-- Source `PeerMap::solicit_blocks`: single-target best-effort send of a
block solicitation; a send failure or an absent peer is only logged, and
the warning itself is not modelled. -/
def solicit_blocks (m : PeerMapState H HH M G) (node_id : NodeId)
    (hashes : List HH) : PeerMapState H HH M G :=
  match listLookup m node_id with
  | some comms =>
      listUpdate m node_id
        { comms with
          block_solicitations := (comms.block_solicitations.try_send hashes).2 }
  | none => m

/-- Source `BlockMsg`: tagged inbound block message of the intake router. -/
inductive BlockMsg (Block : Type) where
  | NetworkBlock (block : Block)
  | LeadershipBlock (block : Block)
deriving DecidableEq

/-- State touched by the intake router: the chain behind its write lock,
and the sequence of messages pushed onto the unbounded network broadcast
channel. -/
structure RouterState (Chain Block : Type) where
  chain : Chain
  broadcast : List Block
deriving DecidableEq

/-- Source `blockchain::process::process`.  The chain transition
`handle_incoming_block` is an external collaborator (its module is not
among the sources); following §6 of the spec it is passed in as a
function returning `none` when the block is rejected, in which case the
chain is unchanged.  As in the source, its outcome is ignored: a
leadership block is pushed onto the broadcast channel unconditionally. -/
def process (handle_incoming_block : Chain → Block → Option Chain)
    (st : RouterState Chain Block) (bquery : BlockMsg Block) :
    RouterState Chain Block :=
  match bquery with
  | BlockMsg.NetworkBlock block =>
      { st with chain := (handle_incoming_block st.chain block).getD st.chain }
  | BlockMsg.LeadershipBlock block =>
      let chain' := (handle_incoming_block st.chain block).getD st.chain
      ⟨chain', st.broadcast ++ [block]⟩

/-- Fragment identifier (content hash): opaque, equality-comparable. -/
abbrev FragmentId := Nat

/-- Block date from the header evaluation context, opaque here. -/
abbrev BlockDate := Nat

/-- Source `fragment::Status`: lifecycle status of a fragment. -/
inductive Status where
  | Pending
  | InABlock (date : BlockDate)
  | Rejected (reason : String)
deriving DecidableEq

/-- Fragment status log: mapping from fragment identifier to status. -/
abbrev Logs := List (FragmentId × Status)

/-- Modelled from the spec: `logs.modify(id, status)` of §4.6 updates the
mapping unconditionally (`fragment/logs.rs` is not among the sources) —
the existing entry is overwritten, or a new entry is created. -/
def Logs.modify (logs : Logs) (id : FragmentId) (status : Status) : Logs :=
  match listLookup logs id with
  | some _ => listUpdate logs id status
  | none => logs ++ [(id, status)]

/-- Modelled from the spec: the mempool pool of §3 (`fragment/pool.rs` is
not among the sources) — a lookup map from identifier to fragment plus the
FIFO-by-insertion-time view `entries_by_time` that the selection loop pops
from the front, as used by `OldestFirst::select`. -/
structure Pool (F : Type) where
  entries_by_time : List FragmentId
  entries : List (FragmentId × F)
deriving DecidableEq

/-- Source `HeaderContentEvalContext`, reduced to the field the selection
engine reads: the block date. -/
structure HeaderContentEvalContext where
  block_date : BlockDate
deriving DecidableEq

/-- The `while let` loop of source `OldestFirst::select`: pop the oldest
identifier from the FIFO view, break once the accepted count reached
`max_per_block`, remove the fragment from the pool (`unwrap` of a missing
entry embeds as `none`), apply it to the ledger, and either append it to
the builder and log `InABlock`, or log `Rejected` with the rendered error.
The ledger read view, parameters and metadata are fixed for the whole
loop, so `ledger.apply_fragment(params, &fragment, metadata)` embeds as
the function `applyF` returning `none` on acceptance or the rendered
error string on rejection. -/
def selectLoop (applyF : F → Option String) (date : BlockDate)
    (max_per_block : Nat) :
    List FragmentId → Nat → List F → Logs → List (FragmentId × F) →
    Option (List F × Logs × List FragmentId × List (FragmentId × F))
  | [], _, builder, logs, entries => some (builder, logs, [], entries)
  | id :: rest, total, builder, logs, entries =>
      if max_per_block ≤ total then some (builder, logs, rest, entries)
      else
        match listLookup entries id with
        | none => none
        | some fragment =>
            let entries' := listErase entries id
            match applyF fragment with
            | none =>
                selectLoop applyF date max_per_block rest (total + 1)
                  (builder ++ [fragment])
                  (Logs.modify logs id (Status.InABlock date)) entries'
            | some reason =>
                selectLoop applyF date max_per_block rest total builder
                  (Logs.modify logs id (Status.Rejected reason)) entries'

/-- Source `OldestFirst` strategy state: accumulated block builder and the
`max_per_block` bound. -/
structure OldestFirst (F : Type) where
  builder : List F
  max_per_block : Nat
deriving DecidableEq

/-- Source `OldestFirst::new`. -/
def OldestFirst.new (max_per_block : Nat) : OldestFirst F :=
  ⟨[], max_per_block⟩

/-- Source `OldestFirst::select`, wiring the loop to the strategy state,
the status log and the pool.  `none` embeds the `unwrap` panic on a pool
whose FIFO view yields an identifier absent from the lookup map. -/
def OldestFirst.select (s : OldestFirst F) (applyF : F → Option String)
    (metadata : HeaderContentEvalContext) (logs : Logs) (pool : Pool F) :
    Option (OldestFirst F × Logs × Pool F) :=
  match selectLoop applyF metadata.block_date s.max_per_block
      pool.entries_by_time 0 s.builder logs pool.entries with
  | none => none
  | some (builder', logs', byTime', entries') =>
      some (⟨builder', s.max_per_block⟩, logs', ⟨byTime', entries'⟩)

/-- Source `OldestFirst::finalize`: consume the strategy, return the body. -/
def OldestFirst.finalize (s : OldestFirst F) : List F := s.builder

/-- Spec-side definition for the propagation refinement claim, following
the spec's words: for each listed peer in order, record `true` exactly
when the peer "is known and enqueue succeeded", `false` when it "was
absent or its enqueue failed", with the removal/mutation of records
threaded exactly as the failure policy prescribes. -/
def reachOutcomes
    (f : PeerComms H HH M G → Except (PropagateError T) Unit × PeerComms H HH M G) :
    List Node → PeerMapState H HH M G →
    List (Node × Bool) × PeerMapState H HH M G
  | [], m => ([], m)
  | n :: ns, m =>
      match listLookup m n.id with
      | none =>
          ((n, false) :: (reachOutcomes f ns m).1, (reachOutcomes f ns m).2)
      | some comms =>
          match f comms with
          | (Except.ok _, comms') =>
              ((n, true) :: (reachOutcomes f ns (listUpdate m n.id comms')).1,
               (reachOutcomes f ns (listUpdate m n.id comms')).2)
          | (Except.error _, _) =>
              ((n, false) :: (reachOutcomes f ns (listErase m n.id)).1,
               (reachOutcomes f ns (listErase m n.id)).2)

/-! ## Association-list lemmas -/

theorem listLookup_append_right {α : Type} (m : List (Nat × α)) (k : Nat) (v : α)
    (h : listLookup m k = none) : listLookup (m ++ [(k, v)]) k = some v := by
  induction m with
  | nil => simp [listLookup]
  | cons p rest ih =>
      obtain ⟨k', v'⟩ := p
      by_cases hk : k' = k
      · simp [listLookup, hk] at h
      · simp only [listLookup, hk, if_false, List.cons_append] at h ⊢
        exact ih h

theorem listUpdate_lookup_ne {α : Type} (m : List (Nat × α)) (k j : Nat) (v : α)
    (h : k ≠ j) : listLookup (listUpdate m k v) j = listLookup m j := by
  induction m with
  | nil => simp [listUpdate]
  | cons p rest ih =>
      obtain ⟨k', v'⟩ := p
      by_cases hk : k' = k
      · subst hk
        simp [listUpdate, listLookup, h]
      · simp [listUpdate, listLookup, hk, ih]

theorem listErase_lookup_ne {α : Type} (m : List (Nat × α)) (k j : Nat)
    (h : k ≠ j) : listLookup (listErase m k) j = listLookup m j := by
  induction m with
  | nil => simp [listErase]
  | cons p rest ih =>
      obtain ⟨k', v'⟩ := p
      by_cases hk : k' = k
      · subst hk
        simp [listErase, listLookup, h]
      · simp [listErase, listLookup, hk, ih]

theorem listUpdate_of_lookup_none {α : Type} (m : List (Nat × α)) (k : Nat)
    (v : α) (h : listLookup m k = none) : listUpdate m k v = m := by
  induction m with
  | nil => rfl
  | cons p rest ih =>
      obtain ⟨k', v'⟩ := p
      by_cases hk : k' = k
      · simp [listLookup, hk] at h
      · simp only [listLookup, hk, if_false] at h
        simp [listUpdate, hk, ih h]

theorem listErase_of_lookup_none {α : Type} (m : List (Nat × α)) (k : Nat)
    (h : listLookup m k = none) : listErase m k = m := by
  induction m with
  | nil => rfl
  | cons p rest ih =>
      obtain ⟨k', v'⟩ := p
      by_cases hk : k' = k
      · simp [listLookup, hk] at h
      · simp only [listLookup, hk, if_false] at h
        simp [listErase, hk, ih h]

theorem listUpdate_self {α : Type} (m : List (Nat × α)) (k : Nat) (c : α)
    (h : listLookup m k = some c) : listUpdate m k c = m := by
  induction m with
  | nil => simp [listLookup] at h
  | cons p rest ih =>
      obtain ⟨k', v'⟩ := p
      by_cases hk : k' = k
      · simp only [listLookup, hk, if_true] at h
        obtain rfl : v' = c := by injection h
        simp [listUpdate, hk]
      · simp only [listLookup, hk, if_false] at h
        simp [listUpdate, hk, ih h]

theorem listLookup_of_not_mem_keys {α : Type} (m : List (Nat × α)) (k : Nat)
    (h : k ∉ m.map Prod.fst) : listLookup m k = none := by
  induction m with
  | nil => rfl
  | cons p rest ih =>
      obtain ⟨k', v'⟩ := p
      simp only [List.map_cons, List.mem_cons] at h
      push_neg at h
      have hk : k' ≠ k := fun e => h.1 e.symm
      simp [listLookup, hk, ih h.2]

theorem listErase_lookup_self_of_nodup {α : Type} (m : List (Nat × α)) (k : Nat)
    (hnd : (m.map Prod.fst).Nodup) : listLookup (listErase m k) k = none := by
  induction m with
  | nil => rfl
  | cons p rest ih =>
      obtain ⟨k', v'⟩ := p
      simp only [List.map_cons, List.nodup_cons] at hnd
      by_cases hk : k' = k
      · subst hk
        simp only [listErase, if_true]
        exact listLookup_of_not_mem_keys rest k' hnd.1
      · simp [listErase, listLookup, hk, ih hnd.2]

theorem listUpdate_keys {α : Type} (m : List (Nat × α)) (k : Nat) (v : α) :
    (listUpdate m k v).map Prod.fst = m.map Prod.fst := by
  induction m with
  | nil => rfl
  | cons p rest ih =>
      obtain ⟨k', v'⟩ := p
      by_cases hk : k' = k
      · simp [listUpdate, hk]
      · simp [listUpdate, hk, ih]

theorem listErase_sublist {α : Type} (m : List (Nat × α)) (k : Nat) :
    List.Sublist (listErase m k) m := by
  induction m with
  | nil => exact List.Sublist.refl _
  | cons p rest ih =>
      obtain ⟨k', v'⟩ := p
      by_cases hk : k' = k
      · subst hk
        simp [listErase]
      · simpa [listErase, hk] using List.Sublist.cons₂ (k', v') ih

theorem listErase_keys_nodup {α : Type} (m : List (Nat × α)) (k : Nat)
    (hnd : (m.map Prod.fst).Nodup) : ((listErase m k).map Prod.fst).Nodup :=
  ((listErase_sublist m k).map Prod.fst).nodup hnd

/-! ## Channel lemmas -/

/-- On any send error the handle is left unchanged (the buffer is only
mutated on success). -/
theorem try_send_error_frame {T : Type} (h : CommHandle T) (x : T)
    (e : PropagateError T) (herr : (h.try_send x).1 = Except.error e) :
    (h.try_send x).2 = h := by
  obtain ⟨s⟩ := h
  cases s with
  | NotSubscribed => rfl
  | Subscribed sender =>
      by_cases hd : sender.disconnected
      · simp [CommHandle.try_send, Sender.try_send, hd]
      · by_cases hf : BUFFER_LEN ≤ sender.buffer.length
        · simp [CommHandle.try_send, Sender.try_send, hd, hf]
        · exfalso
          simp [CommHandle.try_send, Sender.try_send, hd, hf] at herr

theorem sendAll_ok_of_room {T : Type} (b : List T) (xs : List T)
    (h : b.length + xs.length ≤ BUFFER_LEN) :
    sendAll ⟨SubscriptionState.Subscribed ⟨b, false⟩⟩ xs
      = (List.replicate xs.length (Except.ok ()),
         ⟨SubscriptionState.Subscribed ⟨b ++ xs, false⟩⟩) := by
  induction xs generalizing b with
  | nil => simp [sendAll]
  | cons x xs ih =>
      have hlen : ¬ BUFFER_LEN ≤ b.length := by
        simp only [List.length_cons] at h
        omega
      have hstep : (CommHandle.try_send ⟨SubscriptionState.Subscribed ⟨b, false⟩⟩ x)
          = (Except.ok (), ⟨SubscriptionState.Subscribed ⟨b ++ [x], false⟩⟩) := by
        simp [CommHandle.try_send, Sender.try_send, hlen]
      have hrec := ih (b ++ [x]) (by simp only [List.length_append,
        List.length_cons, List.length_nil] at h ⊢; omega)
      simp [sendAll, hstep, hrec, List.replicate_succ]

theorem sendAll_overflow_of_full {T : Type} (b : List T) (zs : List T)
    (h : b.length = BUFFER_LEN) :
    sendAll ⟨SubscriptionState.Subscribed ⟨b, false⟩⟩ zs
      = (zs.map (fun z => Except.error ⟨ErrorKind.StreamOverflow, z⟩),
         ⟨SubscriptionState.Subscribed ⟨b, false⟩⟩) := by
  induction zs with
  | nil => simp [sendAll]
  | cons z zs ih =>
      have hstep : (CommHandle.try_send ⟨SubscriptionState.Subscribed ⟨b, false⟩⟩ z)
          = (Except.error ⟨ErrorKind.StreamOverflow, z⟩,
             ⟨SubscriptionState.Subscribed ⟨b, false⟩⟩) := by
        simp [CommHandle.try_send, Sender.try_send, h, SendError.is_disconnected,
          SendError.is_full]
      simp [sendAll, hstep, ih]

theorem sendAll_append {T : Type} (h : CommHandle T) (xs ys : List T) :
    sendAll h (xs ++ ys)
      = ((sendAll h xs).1 ++ (sendAll (sendAll h xs).2 ys).1,
         (sendAll (sendAll h xs).2 ys).2) := by
  induction xs generalizing h with
  | nil => simp [sendAll]
  | cons x xs ih => simp [sendAll, ih]

/-! ## Claim theorems (first batch) -/

/-- C9: when the router receives `NetworkBlock(b)` it applies `b` to the
chain (the rejected case leaving the chain unchanged) and pushes nothing
onto the network broadcast channel. -/
theorem network_block_no_rebroadcast {Chain Block : Type}
    (handle_incoming_block : Chain → Block → Option Chain)
    (st : RouterState Chain Block) (b : Block) :
    (process handle_incoming_block st (BlockMsg.NetworkBlock b)).chain
        = (handle_incoming_block st.chain b).getD st.chain ∧
    (process handle_incoming_block st (BlockMsg.NetworkBlock b)).broadcast
        = st.broadcast :=
  ⟨rfl, rfl⟩

/-- C2 (failing input): with a chain transition that rejects every block,
the router still pushes the leadership block onto the broadcast channel —
the source ignores the apply outcome and broadcasts unconditionally, so
a rejected block is advertised. -/
theorem leadership_block_broadcast_despite_rejected_apply :
    process (fun (_ : Nat) (_ : Nat) => none) ⟨0, []⟩
        (BlockMsg.LeadershipBlock 7)
      = ⟨0, [7]⟩ :=
  rfl

/-- C10: a freshly created peer comms record — also one lazily created by
the ensure step of the subscribe operations on an absent peer — has all
four topic channels `NotSubscribed`, and `try_send` on a not-subscribed
topic fails with `NotSubscribed`, carrying the unsent item back and
leaving the handle unchanged. -/
theorem fresh_peer_comms_not_subscribed (H HH M G : Type)
    (m : PeerMapState H HH M G) (id : NodeId)
    (habsent : listLookup m id = none) :
    (ensure_peer_comms m id).1 = (PeerComms.new : PeerComms H HH M G) ∧
    listLookup (ensure_peer_comms m id).2 id
      = some (PeerComms.new : PeerComms H HH M G) ∧
    (PeerComms.new : PeerComms H HH M G).block_announcements
      = CommHandle.default ∧
    (PeerComms.new : PeerComms H HH M G).block_solicitations
      = CommHandle.default ∧
    (PeerComms.new : PeerComms H HH M G).messages = CommHandle.default ∧
    (PeerComms.new : PeerComms H HH M G).gossip = CommHandle.default ∧
    ∀ (T : Type) (x : T),
      (CommHandle.default : CommHandle T).try_send x
        = (Except.error ⟨ErrorKind.NotSubscribed, x⟩, CommHandle.default) := by
  refine ⟨?_, ?_, rfl, rfl, rfl, rfl, fun T x => rfl⟩
  · simp [ensure_peer_comms, habsent]
  · simp only [ensure_peer_comms, habsent]
    exact listLookup_append_right m id PeerComms.new habsent

/-- C10 witness: the empty map, peer 0. -/
theorem fresh_peer_comms_not_subscribed_witness :
    (ensure_peer_comms ([] : PeerMapState Nat Nat Nat Nat) 0).1
      = (PeerComms.new : PeerComms Nat Nat Nat Nat) ∧
    listLookup (ensure_peer_comms ([] : PeerMapState Nat Nat Nat Nat) 0).2 0
      = some (PeerComms.new : PeerComms Nat Nat Nat Nat) ∧
    (PeerComms.new : PeerComms Nat Nat Nat Nat).block_announcements
      = CommHandle.default ∧
    (PeerComms.new : PeerComms Nat Nat Nat Nat).block_solicitations
      = CommHandle.default ∧
    (PeerComms.new : PeerComms Nat Nat Nat Nat).messages = CommHandle.default ∧
    (PeerComms.new : PeerComms Nat Nat Nat Nat).gossip = CommHandle.default ∧
    ∀ (T : Type) (x : T),
      (CommHandle.default : CommHandle T).try_send x
        = (Except.error ⟨ErrorKind.NotSubscribed, x⟩, CommHandle.default) :=
  fresh_peer_comms_not_subscribed Nat Nat Nat Nat [] 0 rfl

/-- C4: on a freshly subscribed channel whose consumer never polls, the
first `BUFFER_LEN = 8` sends all succeed (the items queue up in FIFO
order) and every further send, the 9th in particular, returns
`StreamOverflow` surrendering its item. -/
theorem bounded_buffering (T : Type) (xs : List T) (y : T) (ys : List T)
    (hxs : xs.length = 8) :
    sendAll (CommHandle.subscribe CommHandle.default) (xs ++ y :: ys)
      = (List.replicate 8 (Except.ok ())
          ++ (y :: ys).map (fun z => Except.error ⟨ErrorKind.StreamOverflow, z⟩),
         ⟨SubscriptionState.Subscribed ⟨xs, false⟩⟩) := by
  have hfresh : (CommHandle.subscribe CommHandle.default : CommHandle T)
      = ⟨SubscriptionState.Subscribed ⟨[], false⟩⟩ := rfl
  rw [hfresh, sendAll_append,
    sendAll_ok_of_room [] xs (by simp [BUFFER_LEN, hxs]),
    sendAll_overflow_of_full ([] ++ xs) (y :: ys) (by simp [BUFFER_LEN, hxs])]
  simp [hxs]

/-- C4 witness: eight sends succeed, the ninth overflows. -/
theorem bounded_buffering_witness :
    sendAll (CommHandle.subscribe (CommHandle.default : CommHandle Nat))
        ([0, 1, 2, 3, 4, 5, 6, 7] ++ 8 :: [])
      = (List.replicate 8 (Except.ok ())
          ++ (8 :: []).map
              (fun z => Except.error ⟨ErrorKind.StreamOverflow, z⟩),
         ⟨SubscriptionState.Subscribed ⟨[0, 1, 2, 3, 4, 5, 6, 7], false⟩⟩) :=
  bounded_buffering Nat [0, 1, 2, 3, 4, 5, 6, 7] 8 [] rfl

/-- C8: `solicit_blocks` leaves the peer map unchanged whenever the target
peer is absent or its send fails with any error (overflow included): the
request is only logged and dropped, the record staying in place with all
its channels intact. -/
theorem solicit_blocks_leaves_map_unchanged (H HH M G : Type)
    (m : PeerMapState H HH M G) (node_id : NodeId) (hashes : List HH)
    (h : listLookup m node_id = none ∨
      ∃ comms e, listLookup m node_id = some comms ∧
        (comms.block_solicitations.try_send hashes).1 = Except.error e) :
    solicit_blocks m node_id hashes = m := by
  rcases h with habsent | ⟨comms, e, hfound, herr⟩
  · simp [solicit_blocks, habsent]
  · have hframe := try_send_error_frame comms.block_solicitations hashes e herr
    simp only [solicit_blocks, hfound, hframe]
    exact listUpdate_self m node_id comms hfound

/-- C8 witness: a present peer whose solicitation buffer is full, so the
send fails with `StreamOverflow`; the map is unchanged. -/
theorem solicit_blocks_leaves_map_unchanged_witness :
    solicit_blocks
        ([(0, { (PeerComms.new : PeerComms Nat Nat Nat Nat) with
                block_solicitations :=
                  ⟨SubscriptionState.Subscribed
                    ⟨[[9], [9], [9], [9], [9], [9], [9], [9]], false⟩⟩ })]
          : PeerMapState Nat Nat Nat Nat) 0 [1]
      = [(0, { (PeerComms.new : PeerComms Nat Nat Nat Nat) with
               block_solicitations :=
                 ⟨SubscriptionState.Subscribed
                   ⟨[[9], [9], [9], [9], [9], [9], [9], [9]], false⟩⟩ })] :=
  solicit_blocks_leaves_map_unchanged Nat Nat Nat Nat _ 0 [1]
    (Or.inr ⟨_, ⟨ErrorKind.StreamOverflow, [1]⟩, rfl, rfl⟩)

/-! ## Propagation loop lemmas -/

/-- `try_send` on a not-subscribed handle surrenders the item. -/
theorem try_send_of_notSubscribed {T : Type} (h : CommHandle T) (x : T)
    (hstate : h.state = SubscriptionState.NotSubscribed) :
    h.try_send x = (Except.error ⟨ErrorKind.NotSubscribed, x⟩, h) := by
  obtain ⟨s⟩ := h
  simp only at hstate
  subst hstate
  rfl

/-- The fan-out loop never creates a map entry: a key absent before stays
absent after. -/
theorem propagateLoop_no_new_key {H HH M G T : Type}
    (f : PeerComms H HH M G → Except (PropagateError T) Unit × PeerComms H HH M G)
    (nodes : List Node) (m : PeerMapState H HH M G) (j : NodeId)
    (habsent : listLookup m j = none) :
    listLookup (propagateLoop f nodes m).2 j = none := by
  induction nodes generalizing m with
  | nil => exact habsent
  | cons n ns ih =>
      cases hlk : listLookup m n.id with
      | none => simp only [propagateLoop, hlk]; exact ih m habsent
      | some comms =>
          have hne : n.id ≠ j := by
            intro e
            rw [e, habsent] at hlk
            exact Option.noConfusion hlk
          rcases hfc : f comms with ⟨r, c'⟩
          cases r with
          | ok _ =>
              simp only [propagateLoop, hlk, hfc]
              exact ih _ (by rw [listUpdate_lookup_ne m n.id j c' hne]; exact habsent)
          | error _ =>
              simp only [propagateLoop, hlk, hfc]
              exact ih _ (by rw [listErase_lookup_ne m n.id j hne]; exact habsent)

/-- If a listed peer's record is present and the send on it fails, the
fan-out loop reports the peer unreached and removes its record. -/
theorem propagateLoop_err_removes {H HH M G T : Type}
    (f : PeerComms H HH M G → Except (PropagateError T) Unit × PeerComms H HH M G)
    (nodes : List Node) (m : PeerMapState H HH M G) (n : Node)
    (comms : PeerComms H HH M G)
    (hkeys : (m.map Prod.fst).Nodup)
    (hids : (nodes.map Node.id).Nodup)
    (hmem : n ∈ nodes)
    (hfound : listLookup m n.id = some comms)
    (hfail : ∃ e, (f comms).1 = Except.error e) :
    n ∈ (propagateLoop f nodes m).1 ∧
    listLookup (propagateLoop f nodes m).2 n.id = none := by
  induction nodes generalizing m with
  | nil => cases hmem
  | cons n₁ ns ih =>
      simp only [List.map_cons, List.nodup_cons] at hids
      rcases List.mem_cons.mp hmem with rfl | hmem'
      · obtain ⟨e, he⟩ := hfail
        rcases hfc : f comms with ⟨r, c'⟩
        rw [hfc] at he
        simp only at he
        subst he
        simp only [propagateLoop, hfound, hfc]
        refine ⟨List.mem_cons_self _ _, ?_⟩
        exact propagateLoop_no_new_key f ns _ n.id
          (listErase_lookup_self_of_nodup m n.id hkeys)
      · have hne : n₁.id ≠ n.id := by
          intro e
          exact hids.1 (e ▸ List.mem_map_of_mem Node.id hmem')
        cases hlk : listLookup m n₁.id with
        | none =>
            simp only [propagateLoop, hlk]
            have := ih m hkeys hids.2 hmem' hfound
            exact ⟨List.mem_cons_of_mem _ this.1, this.2⟩
        | some c₁ =>
            rcases hfc : f c₁ with ⟨r, c'⟩
            cases r with
            | ok _ =>
                simp only [propagateLoop, hlk, hfc]
                refine ih _ ?_ hids.2 hmem' ?_
                · rw [listUpdate_keys]; exact hkeys
                · rw [listUpdate_lookup_ne m n₁.id n.id c' hne]; exact hfound
            | error _ =>
                simp only [propagateLoop, hlk, hfc]
                have := ih _ (listErase_keys_nodup m n₁.id hkeys) hids.2 hmem'
                  (by rw [listErase_lookup_ne m n₁.id n.id hne]; exact hfound)
                exact ⟨List.mem_cons_of_mem _ this.1, this.2⟩

/-- C1 counterexample: peer 0 is present in the map, its record's
announcement topic is `NotSubscribed`, the send fails with
`NotSubscribed` — and yet `propagate_block` removes the record from the
map (it only also reports the peer unreached). -/
theorem propagate_notSubscribed_keeps_peer_counterexample :
    listLookup ([(0, (PeerComms.new : PeerComms Nat Nat Nat Nat))]) 0
      = some PeerComms.new ∧
    ((PeerComms.new : PeerComms Nat Nat Nat Nat).try_send_block_announcement 5).1
      = Except.error ⟨ErrorKind.NotSubscribed, 5⟩ ∧
    (propagate_block [(0, (PeerComms.new : PeerComms Nat Nat Nat Nat))]
        [⟨0⟩] 5).1 = Except.error [⟨0⟩] ∧
    listLookup (propagate_block
        [(0, (PeerComms.new : PeerComms Nat Nat Nat Nat))] [⟨0⟩] 5).2 0
      = none :=
  ⟨rfl, rfl, rfl, rfl⟩

/-- C1 amended: when a listed peer's record is present but the send fails
with `NotSubscribed` (announcement topic for `propagate_block`, message
topic for `propagate_message`), the peer record IS removed from the map —
the source removes the record on every send error kind — and the peer is
reported in the returned unreached list. -/
theorem propagate_notSubscribed_removes_peer (H HH M G : Type)
    (m : PeerMapState H HH M G) (nodes : List Node) (n : Node)
    (header : H) (message : M) (comms : PeerComms H HH M G)
    (hkeys : (m.map Prod.fst).Nodup)
    (hids : (nodes.map Node.id).Nodup)
    (hmem : n ∈ nodes)
    (hfound : listLookup m n.id = some comms) :
    (comms.block_announcements.state = SubscriptionState.NotSubscribed →
      ∃ u, (propagate_block m nodes header).1 = Except.error u ∧ n ∈ u ∧
        listLookup (propagate_block m nodes header).2 n.id = none) ∧
    (comms.messages.state = SubscriptionState.NotSubscribed →
      ∃ u, (propagate_message m nodes message).1 = Except.error u ∧ n ∈ u ∧
        listLookup (propagate_message m nodes message).2 n.id = none) := by
  constructor
  · intro hstate
    have hloop := propagateLoop_err_removes
      (fun c => c.try_send_block_announcement header) nodes m n comms
      hkeys hids hmem hfound
      ⟨⟨ErrorKind.NotSubscribed, header⟩, by
        simp [PeerComms.try_send_block_announcement,
          try_send_of_notSubscribed comms.block_announcements header hstate]⟩
    refine ⟨(propagateLoop
        (fun c => c.try_send_block_announcement header) nodes m).1, ?_, hloop.1, hloop.2⟩
    have hne : ¬ (propagateLoop
        (fun c => c.try_send_block_announcement header) nodes m).1.isEmpty := by
      rcases hl : (propagateLoop
          (fun c => c.try_send_block_announcement header) nodes m).1 with _ | ⟨a, l⟩
      · rw [hl] at hloop; cases hloop.1
      · simp
    simp [propagate_block, propagate_with, hne]
  · intro hstate
    have hloop := propagateLoop_err_removes
      (fun c => c.try_send_message message) nodes m n comms
      hkeys hids hmem hfound
      ⟨⟨ErrorKind.NotSubscribed, message⟩, by
        simp [PeerComms.try_send_message,
          try_send_of_notSubscribed comms.messages message hstate]⟩
    refine ⟨(propagateLoop
        (fun c => c.try_send_message message) nodes m).1, ?_, hloop.1, hloop.2⟩
    have hne : ¬ (propagateLoop
        (fun c => c.try_send_message message) nodes m).1.isEmpty := by
      rcases hl : (propagateLoop
          (fun c => c.try_send_message message) nodes m).1 with _ | ⟨a, l⟩
      · rw [hl] at hloop; cases hloop.1
      · simp
    simp [propagate_message, propagate_with, hne]

/-- C1 amended witness: one present peer with nothing subscribed; both
fan-out operations report it unreached and remove its record. -/
theorem propagate_notSubscribed_removes_peer_witness :
    (∃ u, (propagate_block [(0, (PeerComms.new : PeerComms Nat Nat Nat Nat))]
        [⟨0⟩] 5).1 = Except.error u ∧ (⟨0⟩ : Node) ∈ u ∧
      listLookup (propagate_block
        [(0, (PeerComms.new : PeerComms Nat Nat Nat Nat))] [⟨0⟩] 5).2
        (Node.id ⟨0⟩) = none) ∧
    (∃ u, (propagate_message [(0, (PeerComms.new : PeerComms Nat Nat Nat Nat))]
        [⟨0⟩] 3).1 = Except.error u ∧ (⟨0⟩ : Node) ∈ u ∧
      listLookup (propagate_message
        [(0, (PeerComms.new : PeerComms Nat Nat Nat Nat))] [⟨0⟩] 3).2
        (Node.id ⟨0⟩) = none) :=
  ⟨(propagate_notSubscribed_removes_peer Nat Nat Nat Nat
      [(0, PeerComms.new)] [⟨0⟩] ⟨0⟩ 5 3 PeerComms.new
      (by simp) (by simp) (by simp) rfl).1 rfl,
   (propagate_notSubscribed_removes_peer Nat Nat Nat Nat
      [(0, PeerComms.new)] [⟨0⟩] ⟨0⟩ 5 3 PeerComms.new
      (by simp) (by simp) (by simp) rfl).2 rfl⟩

/-- The fan-out loop agrees with the spec-side `reachOutcomes` view: the
unreached list is exactly the listed peers whose outcome is `false`, and
the final maps coincide. -/
theorem propagateLoop_eq_reachOutcomes {H HH M G T : Type}
    (f : PeerComms H HH M G → Except (PropagateError T) Unit × PeerComms H HH M G)
    (nodes : List Node) (m : PeerMapState H HH M G) :
    propagateLoop f nodes m
      = (((reachOutcomes f nodes m).1.filter (fun p => !p.2)).map
          Prod.fst,
         (reachOutcomes f nodes m).2) := by
  induction nodes generalizing m with
  | nil => simp [propagateLoop, reachOutcomes]
  | cons n ns ih =>
      cases hlk : listLookup m n.id with
      | none => simp [propagateLoop, reachOutcomes, hlk, ih]
      | some comms =>
          rcases hfc : f comms with ⟨r, c'⟩
          cases r with
          | ok _ => simp [propagateLoop, reachOutcomes, hlk, hfc, ih]
          | error _ => simp [propagateLoop, reachOutcomes, hlk, hfc, ih]

/-- Helper for the refinement claim: `propagate_with` in terms of the
spec-side outcomes. -/
theorem propagate_with_spec {H HH M G T : Type}
    (f : PeerComms H HH M G → Except (PropagateError T) Unit × PeerComms H HH M G)
    (nodes : List Node) (m : PeerMapState H HH M G) :
    (propagate_with f nodes m
      = (if (((reachOutcomes f nodes m).1.filter
            (fun p => !p.2)).map Prod.fst).isEmpty
         then Except.ok ()
         else Except.error (((reachOutcomes f nodes m).1.filter
            (fun p => !p.2)).map Prod.fst),
         (reachOutcomes f nodes m).2)) ∧
    ((propagate_with f nodes m).1 = Except.ok ()
      ↔ ∀ p ∈ (reachOutcomes f nodes m).1, p.2 = true) := by
  have hmain : propagate_with f nodes m
      = (if (((reachOutcomes f nodes m).1.filter
            (fun p => !p.2)).map Prod.fst).isEmpty
         then Except.ok ()
         else Except.error (((reachOutcomes f nodes m).1.filter
            (fun p => !p.2)).map Prod.fst),
         (reachOutcomes f nodes m).2) := by
    have hL := propagateLoop_eq_reachOutcomes f nodes m
    have h1 : (propagateLoop f nodes m).1
        = ((reachOutcomes f nodes m).1.filter (fun p => !p.2)).map Prod.fst := by
      rw [hL]
    have h2 : (propagateLoop f nodes m).2 = (reachOutcomes f nodes m).2 := by
      rw [hL]
    unfold propagate_with
    rw [h1, h2]
  refine ⟨hmain, ?_⟩
  rw [congrArg Prod.fst hmain]
  by_cases hU : (((reachOutcomes f nodes m).1.filter
      (fun p => !p.2)).map Prod.fst).isEmpty
  · simp only [hU, if_true]
    constructor
    · intro _ p hp
      by_contra hfalse
      have hpf : p.2 = false := by
        cases hb : p.2
        · rfl
        · exact absurd hb hfalse
      have : p ∈ (reachOutcomes f nodes m).1.filter (fun p => !p.2) :=
        List.mem_filter.mpr ⟨hp, by simp [hpf]⟩
      rw [List.isEmpty_iff] at hU
      have := List.mem_map_of_mem Prod.fst this
      rw [hU] at this
      cases this
    · intro _
      trivial
  · simp only [hU, if_false]
    constructor
    · intro h
      exact absurd h (by simp)
    · intro hall
      exfalso
      apply hU
      rw [List.isEmpty_iff]
      have : (reachOutcomes f nodes m).1.filter (fun p => !p.2) = [] := by
        rw [List.filter_eq_nil_iff]
        intro p hp
        simp [hall p hp]
      rw [this]
      rfl

/-- C6: `propagate_block` and `propagate_message` return `ok` exactly when
every listed peer was present in the map and its enqueue succeeded (the
spec-side `reachOutcomes` records this per peer, in order); otherwise the
error carries exactly the listed peers that were absent or whose enqueue
failed, in list order. -/
theorem propagate_result_iff_all_reached (H HH M G : Type)
    (m : PeerMapState H HH M G) (nodes : List Node) (header : H) (message : M) :
    (propagate_block m nodes header
      = (if (((reachOutcomes (fun c => c.try_send_block_announcement header)
            nodes m).1.filter (fun p => !p.2)).map Prod.fst).isEmpty
         then Except.ok ()
         else Except.error (((reachOutcomes
            (fun c => c.try_send_block_announcement header)
            nodes m).1.filter (fun p => !p.2)).map Prod.fst),
         (reachOutcomes (fun c => c.try_send_block_announcement header)
            nodes m).2)) ∧
    ((propagate_block m nodes header).1 = Except.ok ()
      ↔ ∀ p ∈ (reachOutcomes (fun c => c.try_send_block_announcement header)
          nodes m).1, p.2 = true) ∧
    (propagate_message m nodes message
      = (if (((reachOutcomes (fun c => c.try_send_message message)
            nodes m).1.filter (fun p => !p.2)).map Prod.fst).isEmpty
         then Except.ok ()
         else Except.error (((reachOutcomes
            (fun c => c.try_send_message message)
            nodes m).1.filter (fun p => !p.2)).map Prod.fst),
         (reachOutcomes (fun c => c.try_send_message message) nodes m).2)) ∧
    ((propagate_message m nodes message).1 = Except.ok ()
      ↔ ∀ p ∈ (reachOutcomes (fun c => c.try_send_message message)
          nodes m).1, p.2 = true) :=
  ⟨(propagate_with_spec _ nodes m).1, (propagate_with_spec _ nodes m).2,
   (propagate_with_spec _ nodes m).1, (propagate_with_spec _ nodes m).2⟩

/-! ## Status-log lemmas -/

theorem listUpdate_lookup_self {α : Type} (m : List (Nat × α)) (k : Nat)
    (v w : α) (h : listLookup m k = some w) :
    listLookup (listUpdate m k v) k = some v := by
  induction m with
  | nil => simp [listLookup] at h
  | cons p rest ih =>
      obtain ⟨k', v'⟩ := p
      by_cases hk : k' = k
      · simp [listUpdate, listLookup, hk]
      · simp only [listLookup, hk, if_false] at h
        simp [listUpdate, listLookup, hk, ih h]

theorem listLookup_append_ne {α : Type} (m : List (Nat × α)) (k j : Nat)
    (v : α) (h : k ≠ j) : listLookup (m ++ [(k, v)]) j = listLookup m j := by
  induction m with
  | nil => simp [listLookup, h]
  | cons p rest ih =>
      obtain ⟨k', v'⟩ := p
      by_cases hk : k' = j
      · simp [listLookup, hk]
      · simp [listLookup, hk, ih]

theorem listErase_lookup_none {α : Type} (m : List (Nat × α)) (k j : Nat)
    (h : listLookup m j = none) : listLookup (listErase m k) j = none := by
  by_cases hk : k = j
  · subst hk
    induction m with
    | nil => rfl
    | cons p rest ih =>
        obtain ⟨k', v'⟩ := p
        by_cases hkk : k' = k
        · simp [listLookup, hkk] at h
        · simp only [listLookup, hkk, if_false] at h
          simp [listErase, listLookup, hkk, ih h]
  · rw [listErase_lookup_ne m k j hk]
    exact h

theorem logsModify_lookup_self (logs : Logs) (id : FragmentId) (st : Status) :
    listLookup (Logs.modify logs id st) id = some st := by
  cases h : listLookup logs id with
  | none =>
      simp only [Logs.modify, h]
      exact listLookup_append_right logs id st h
  | some w =>
      simp only [Logs.modify, h]
      exact listUpdate_lookup_self logs id st w h

theorem logsModify_lookup_ne (logs : Logs) (id j : FragmentId) (st : Status)
    (h : id ≠ j) :
    listLookup (Logs.modify logs id st) j = listLookup logs j := by
  cases hl : listLookup logs id with
  | none =>
      simp only [Logs.modify, hl]
      exact listLookup_append_ne logs id j st h
  | some w =>
      simp only [Logs.modify, hl]
      exact listUpdate_lookup_ne logs id j st h

/-! ## Selection-loop frame lemmas -/

/-- The selection loop only touches log entries of identifiers it pops
from the FIFO view. -/
theorem selectLoop_logs_frame {F : Type} (applyF : F → Option String)
    (date maxpb : Nat) (byTime : List FragmentId) :
    ∀ (total : Nat) (builder : List F) (logs : Logs)
      (entries : List (FragmentId × F))
      (out : List F × Logs × List FragmentId × List (FragmentId × F)),
      selectLoop applyF date maxpb byTime total builder logs entries = some out →
      ∀ j ∉ byTime, listLookup out.2.1 j = listLookup logs j := by
  induction byTime with
  | nil =>
      intro total builder logs entries out h j _
      simp only [selectLoop] at h
      obtain rfl := Option.some.inj h
      rfl
  | cons id rest ih =>
      intro total builder logs entries out h j hj
      have hjne : id ≠ j := fun e => hj (e ▸ List.mem_cons_self id rest)
      have hjrest : j ∉ rest := fun e => hj (List.mem_cons_of_mem id e)
      simp only [selectLoop] at h
      by_cases hcap : maxpb ≤ total
      · rw [if_pos hcap] at h
        obtain rfl := Option.some.inj h
        rfl
      · rw [if_neg hcap] at h
        cases hlk : listLookup entries id with
        | none => rw [hlk] at h; cases h
        | some fragment =>
            rw [hlk] at h
            simp only at h
            cases happ : applyF fragment with
            | none =>
                rw [happ] at h
                simp only at h
                rw [ih _ _ _ _ _ h j hjrest]
                exact logsModify_lookup_ne logs id j _ hjne
            | some reason =>
                rw [happ] at h
                simp only at h
                rw [ih _ _ _ _ _ h j hjrest]
                exact logsModify_lookup_ne logs id j _ hjne

/-- The selection loop never inserts pool entries: an identifier absent
from the lookup map stays absent. -/
theorem selectLoop_entries_frame {F : Type} (applyF : F → Option String)
    (date maxpb : Nat) (byTime : List FragmentId) :
    ∀ (total : Nat) (builder : List F) (logs : Logs)
      (entries : List (FragmentId × F))
      (out : List F × Logs × List FragmentId × List (FragmentId × F)),
      selectLoop applyF date maxpb byTime total builder logs entries = some out →
      ∀ j, listLookup entries j = none → listLookup out.2.2.2 j = none := by
  induction byTime with
  | nil =>
      intro total builder logs entries out h j hj
      simp only [selectLoop] at h
      obtain rfl := Option.some.inj h
      exact hj
  | cons id rest ih =>
      intro total builder logs entries out h j hj
      simp only [selectLoop] at h
      by_cases hcap : maxpb ≤ total
      · rw [if_pos hcap] at h
        obtain rfl := Option.some.inj h
        exact hj
      · rw [if_neg hcap] at h
        cases hlk : listLookup entries id with
        | none => rw [hlk] at h; cases h
        | some fragment =>
            rw [hlk] at h
            simp only at h
            cases happ : applyF fragment with
            | none =>
                rw [happ] at h
                simp only at h
                exact ih _ _ _ _ _ h j (listErase_lookup_none entries id j hj)
            | some reason =>
                rw [happ] at h
                simp only at h
                exact ih _ _ _ _ _ h j (listErase_lookup_none entries id j hj)

/-- When every popped fragment is accepted, the loop extends the builder
by the oldest `maxpb - total` fragments in FIFO order and logs each of
them `InABlock`. -/
theorem selectLoop_all_accepted {F : Type} (applyF : F → Option String)
    (date maxpb : Nat) (frag : FragmentId → F) :
    ∀ (byTime : List FragmentId) (total : Nat) (builder : List F)
      (logs : Logs) (entries : List (FragmentId × F)),
      byTime.Nodup →
      (∀ id ∈ byTime, listLookup entries id = some (frag id)) →
      (∀ id ∈ byTime, applyF (frag id) = none) →
      ∃ logs' rest' entries',
        selectLoop applyF date maxpb byTime total builder logs entries
          = some (builder ++ (byTime.take (maxpb - total)).map frag,
                  logs', rest', entries') ∧
        ∀ id ∈ byTime.take (maxpb - total),
          listLookup logs' id = some (Status.InABlock date) := by
  intro byTime
  induction byTime with
  | nil =>
      intro total builder logs entries _ _ _
      refine ⟨logs, [], entries, by simp [selectLoop], ?_⟩
      intro id hid
      simp at hid
  | cons id rest ih =>
      intro total builder logs entries hnodup hcons haccept
      simp only [List.nodup_cons] at hnodup
      by_cases hcap : maxpb ≤ total
      · have htake : maxpb - total = 0 := by omega
        refine ⟨logs, rest, entries, ?_, ?_⟩
        · simp [selectLoop, if_pos hcap, htake]
        · intro i hi
          rw [htake] at hi
          simp at hi
      · have hlk := hcons id (List.mem_cons_self id rest)
        have happ := haccept id (List.mem_cons_self id rest)
        have hcons' : ∀ i ∈ rest,
            listLookup (listErase entries id) i = some (frag i) := by
          intro i hi
          have hne : id ≠ i := fun e => hnodup.1 (e ▸ hi)
          rw [listErase_lookup_ne entries id i hne]
          exact hcons i (List.mem_cons_of_mem id hi)
        obtain ⟨logs', rest', entries', hsel, hlog⟩ :=
          ih (total + 1) (builder ++ [frag id])
            (Logs.modify logs id (Status.InABlock date))
            (listErase entries id) hnodup.2 hcons'
            (fun i hi => haccept i (List.mem_cons_of_mem id hi))
        have hsub : maxpb - total = (maxpb - (total + 1)) + 1 := by omega
        refine ⟨logs', rest', entries', ?_, ?_⟩
        · simp only [selectLoop, if_neg hcap, hlk, happ]
          rw [hsel, hsub, List.take_succ_cons, List.map_cons]
          simp [List.append_assoc]
        · intro i hi
          rw [hsub, List.take_succ_cons] at hi
          rcases List.mem_cons.mp hi with rfl | hi'
          · have hframe := selectLoop_logs_frame applyF date maxpb rest
              (total + 1) (builder ++ [frag i])
              (Logs.modify logs i (Status.InABlock date))
              (listErase entries i) _ hsel i hnodup.1
            rw [hframe]
            exact logsModify_lookup_self logs i (Status.InABlock date)
          · exact hlog i hi'

/-- When the cap leaves room for the whole FIFO view, the loop drains it
completely: the builder gains exactly the accepted fragments in FIFO
order, every drained fragment gets a terminal log status, and every
drained identifier leaves the pool's lookup map. -/
theorem selectLoop_full_drain {F : Type} (applyF : F → Option String)
    (date maxpb : Nat) (frag : FragmentId → F) :
    ∀ (byTime : List FragmentId) (total : Nat) (builder : List F)
      (logs : Logs) (entries : List (FragmentId × F)),
      byTime.Nodup →
      (entries.map Prod.fst).Nodup →
      (∀ id ∈ byTime, listLookup entries id = some (frag id)) →
      total + byTime.length ≤ maxpb →
      ∃ logs' entries',
        selectLoop applyF date maxpb byTime total builder logs entries
          = some (builder ++ (byTime.filter
                (fun i => (applyF (frag i)).isNone)).map frag,
              logs', [], entries') ∧
        (∀ id ∈ byTime,
          listLookup logs' id
            = some (match applyF (frag id) with
                    | none => Status.InABlock date
                    | some reason => Status.Rejected reason)) ∧
        (∀ id ∈ byTime, listLookup entries' id = none) := by
  intro byTime
  induction byTime with
  | nil =>
      intro total builder logs entries _ _ _ _
      exact ⟨logs, entries, by simp [selectLoop], by simp, by simp⟩
  | cons id rest ih =>
      intro total builder logs entries hnodup hekeys hcons hlen
      simp only [List.nodup_cons] at hnodup
      have hcap : ¬ maxpb ≤ total := by
        simp only [List.length_cons] at hlen
        omega
      have hlk := hcons id (List.mem_cons_self id rest)
      have hcons' : ∀ i ∈ rest,
          listLookup (listErase entries id) i = some (frag i) := by
        intro i hi
        have hne : id ≠ i := fun e => hnodup.1 (e ▸ hi)
        rw [listErase_lookup_ne entries id i hne]
        exact hcons i (List.mem_cons_of_mem id hi)
      have hekeys' := listErase_keys_nodup entries id hekeys
      have herased : listLookup (listErase entries id) id = none :=
        listErase_lookup_self_of_nodup entries id hekeys
      cases happ : applyF (frag id) with
      | none =>
          obtain ⟨logs', entries', hsel, hlog, hent⟩ :=
            ih (total + 1) (builder ++ [frag id])
              (Logs.modify logs id (Status.InABlock date))
              (listErase entries id) hnodup.2 hekeys' hcons'
              (by simp only [List.length_cons] at hlen; omega)
          refine ⟨logs', entries', ?_, ?_, ?_⟩
          · simp only [selectLoop, if_neg hcap, hlk, happ]
            rw [hsel]
            have hfil : (id :: rest).filter (fun i => (applyF (frag i)).isNone)
                = id :: rest.filter (fun i => (applyF (frag i)).isNone) := by
              simp [List.filter_cons, happ]
            rw [hfil]
            simp [List.append_assoc]
          · intro i hi
            rcases List.mem_cons.mp hi with rfl | hi'
            · have hframe := selectLoop_logs_frame applyF date maxpb rest
                (total + 1) (builder ++ [frag i])
                (Logs.modify logs i (Status.InABlock date))
                (listErase entries i) _ hsel i hnodup.1
              rw [hframe]
              simp only [happ]
              exact logsModify_lookup_self logs i (Status.InABlock date)
            · exact hlog i hi'
          · intro i hi
            rcases List.mem_cons.mp hi with rfl | hi'
            · exact selectLoop_entries_frame applyF date maxpb rest _ _ _ _ _
                hsel i herased
            · exact hent i hi'
      | some reason =>
          obtain ⟨logs', entries', hsel, hlog, hent⟩ :=
            ih total builder (Logs.modify logs id (Status.Rejected reason))
              (listErase entries id) hnodup.2 hekeys' hcons'
              (by simp only [List.length_cons] at hlen; omega)
          refine ⟨logs', entries', ?_, ?_, ?_⟩
          · simp only [selectLoop, if_neg hcap, hlk, happ]
            rw [hsel]
            have hfil : (id :: rest).filter (fun i => (applyF (frag i)).isNone)
                = rest.filter (fun i => (applyF (frag i)).isNone) := by
              simp [List.filter_cons, happ]
            rw [hfil]
          · intro i hi
            rcases List.mem_cons.mp hi with rfl | hi'
            · have hframe := selectLoop_logs_frame applyF date maxpb rest
                total builder (Logs.modify logs i (Status.Rejected reason))
                (listErase entries i) _ hsel i hnodup.1
              rw [hframe]
              simp only [happ]
              exact logsModify_lookup_self logs i (Status.Rejected reason)
            · exact hlog i hi'
          · intro i hi
            rcases List.mem_cons.mp hi with rfl | hi'
            · exact selectLoop_entries_frame applyF date maxpb rest _ _ _ _ _
                hsel i herased
            · exact hent i hi'

/-- When the accepted count reaches the cap exactly at the end of `front`
and the FIFO view still holds `d :: post`, the loop pops `d`, breaks, and
returns `post` as the remaining FIFO view — `d` keeps its pool entry and
its log entry untouched. -/
theorem selectLoop_cap_break {F : Type} (applyF : F → Option String)
    (date maxpb : Nat) (frag : FragmentId → F) :
    ∀ (front : List FragmentId) (d : FragmentId) (post : List FragmentId)
      (total : Nat) (builder : List F) (logs : Logs)
      (entries : List (FragmentId × F)),
      (front ++ d :: post).Nodup →
      (∀ id ∈ front ++ d :: post, listLookup entries id = some (frag id)) →
      total + (front.filter (fun i => (applyF (frag i)).isNone)).length = maxpb →
      (∀ k < front.length,
        total + ((front.take k).filter
          (fun i => (applyF (frag i)).isNone)).length < maxpb) →
      ∃ builder' logs' entries',
        selectLoop applyF date maxpb (front ++ d :: post) total builder logs
            entries
          = some (builder', logs', post, entries') ∧
        listLookup entries' d = some (frag d) ∧
        listLookup logs' d = listLookup logs d := by
  intro front
  induction front with
  | nil =>
      intro d post total builder logs entries hnodup hcons hcount hmin
      have htot : maxpb ≤ total := by
        simp at hcount
        omega
      refine ⟨builder, logs, entries, ?_, ?_, rfl⟩
      · simp [selectLoop, if_pos htot]
      · exact hcons d (by simp)
  | cons i front' ih =>
      intro d post total builder logs entries hnodup hcons hcount hmin
      rw [List.cons_append] at hnodup hcons
      simp only [List.nodup_cons] at hnodup
      have hlt : ¬ maxpb ≤ total := by
        have h0 := hmin 0 (by simp)
        simp at h0
        omega
      have hlki := hcons i (List.mem_cons_self _ _)
      have hidne : i ≠ d := fun e => hnodup.1 (by rw [e]; simp)
      have hcons' : ∀ j ∈ front' ++ d :: post,
          listLookup (listErase entries i) j = some (frag j) := by
        intro j hj
        have hne : i ≠ j := fun e => hnodup.1 (e ▸ hj)
        rw [listErase_lookup_ne entries i j hne]
        exact hcons j (List.mem_cons_of_mem i hj)
      cases happ : applyF (frag i) with
      | none =>
          have hcount' : (total + 1)
              + (front'.filter (fun j => (applyF (frag j)).isNone)).length
                = maxpb := by
            rw [List.filter_cons] at hcount
            simp [happ] at hcount
            omega
          have hmin' : ∀ k < front'.length, (total + 1)
              + ((front'.take k).filter
                (fun j => (applyF (frag j)).isNone)).length < maxpb := by
            intro k hk
            have hmk := hmin (k + 1) (by simp; omega)
            rw [List.take_succ_cons, List.filter_cons] at hmk
            simp [happ] at hmk
            omega
          obtain ⟨builder', logs', entries', hsel, hent, hlog⟩ :=
            ih d post (total + 1) (builder ++ [frag i])
              (Logs.modify logs i (Status.InABlock date))
              (listErase entries i) hnodup.2 hcons' hcount' hmin'
          refine ⟨builder', logs', entries', ?_, hent, ?_⟩
          · simp only [List.cons_append, selectLoop, if_neg hlt, hlki, happ]
            exact hsel
          · rw [hlog]
            exact logsModify_lookup_ne logs i d _ hidne
      | some reason =>
          have hcount' : total
              + (front'.filter (fun j => (applyF (frag j)).isNone)).length
                = maxpb := by
            rw [List.filter_cons] at hcount
            simp [happ] at hcount
            omega
          have hmin' : ∀ k < front'.length, total
              + ((front'.take k).filter
                (fun j => (applyF (frag j)).isNone)).length < maxpb := by
            intro k hk
            have hmk := hmin (k + 1) (by simp; omega)
            rw [List.take_succ_cons, List.filter_cons] at hmk
            simp [happ] at hmk
            omega
          obtain ⟨builder', logs', entries', hsel, hent, hlog⟩ :=
            ih d post total builder
              (Logs.modify logs i (Status.Rejected reason))
              (listErase entries i) hnodup.2 hcons' hcount' hmin'
          refine ⟨builder', logs', entries', ?_, hent, ?_⟩
          · simp only [List.cons_append, selectLoop, if_neg hlt, hlki, happ]
            exact hsel
          · rw [hlog]
            exact logsModify_lookup_ne logs i d _ hidne

/-- C3: for `OldestFirst` with `max_per_block = K` and a pool of `N`
candidates all accepted by the ledger, `select` succeeds, the finalized
builder holds exactly `min K N` fragments — the oldest ones, in
insertion order — and each selected fragment is logged
`InABlock` with the context's block date. -/
theorem oldestFirst_selects_min_of_cap_and_pool (F : Type)
    (applyF : F → Option String) (metadata : HeaderContentEvalContext)
    (K : Nat) (frag : FragmentId → F) (ids : List FragmentId)
    (entries : List (FragmentId × F)) (logs : Logs)
    (hnodup : ids.Nodup)
    (hcons : ∀ id ∈ ids, listLookup entries id = some (frag id))
    (haccept : ∀ id ∈ ids, applyF (frag id) = none) :
    ∃ st' logs' pool',
      (OldestFirst.new K : OldestFirst F).select applyF metadata logs
          ⟨ids, entries⟩
        = some (st', logs', pool') ∧
      st'.finalize = (ids.take K).map frag ∧
      st'.finalize.length = min K ids.length ∧
      ∀ id ∈ ids.take K,
        listLookup logs' id = some (Status.InABlock metadata.block_date) := by
  obtain ⟨logs', rest', entries', hsel, hlog⟩ :=
    selectLoop_all_accepted applyF metadata.block_date K frag ids 0 [] logs
      entries hnodup hcons haccept
  rw [Nat.sub_zero] at hsel hlog
  refine ⟨⟨[] ++ (ids.take K).map frag, K⟩, logs', ⟨rest', entries'⟩,
    ?_, ?_, ?_, hlog⟩
  · simp only [OldestFirst.select, OldestFirst.new, hsel]
  · simp [OldestFirst.finalize]
  · simp [OldestFirst.finalize, List.length_take]

/-- C3 witness: three accepted fragments, cap two — the two oldest are
selected and logged in a block. -/
theorem oldestFirst_selects_min_of_cap_and_pool_witness :
    ∃ st' logs' pool',
      (OldestFirst.new 2 : OldestFirst Nat).select (fun _ => none) ⟨4⟩
          [(1, Status.Pending), (2, Status.Pending), (3, Status.Pending)]
          ⟨[1, 2, 3], [(1, 1), (2, 2), (3, 3)]⟩
        = some (st', logs', pool') ∧
      st'.finalize = ([1, 2, 3].take 2).map (fun i => i) ∧
      st'.finalize.length = min 2 [1, 2, 3].length ∧
      ∀ id ∈ [1, 2, 3].take 2,
        listLookup logs' id = some (Status.InABlock 4) :=
  oldestFirst_selects_min_of_cap_and_pool Nat (fun _ => none) ⟨4⟩ 2
    (fun i => i) [1, 2, 3] [(1, 1), (2, 2), (3, 3)]
    [(1, Status.Pending), (2, Status.Pending), (3, Status.Pending)]
    (by decide) (by decide) (by decide)

/-- On a pool whose FIFO identifiers are distinct and all present in the
lookup map, the loop never hits the `unwrap` panic: it returns `some`. -/
theorem selectLoop_some {F : Type} (applyF : F → Option String)
    (date maxpb : Nat) (byTime : List FragmentId) :
    ∀ (total : Nat) (builder : List F) (logs : Logs)
      (entries : List (FragmentId × F)),
      byTime.Nodup →
      (∀ id ∈ byTime, ∃ f, listLookup entries id = some f) →
      ∃ out, selectLoop applyF date maxpb byTime total builder logs entries
        = some out := by
  induction byTime with
  | nil =>
      intro total builder logs entries _ _
      exact ⟨(builder, logs, [], entries), by simp [selectLoop]⟩
  | cons id rest ih =>
      intro total builder logs entries hnodup hpres
      simp only [List.nodup_cons] at hnodup
      by_cases hcap : maxpb ≤ total
      · exact ⟨(builder, logs, rest, entries),
          by simp [selectLoop, if_pos hcap]⟩
      · obtain ⟨f, hf⟩ := hpres id (List.mem_cons_self _ _)
        have hpres' : ∀ j ∈ rest,
            ∃ g, listLookup (listErase entries id) j = some g := by
          intro j hj
          obtain ⟨g, hg⟩ := hpres j (List.mem_cons_of_mem id hj)
          refine ⟨g, ?_⟩
          rw [listErase_lookup_ne entries id j (fun e => hnodup.1 (e ▸ hj))]
          exact hg
        cases happ : applyF f with
        | none =>
            obtain ⟨out, hout⟩ := ih (total + 1) (builder ++ [f])
              (Logs.modify logs id (Status.InABlock date))
              (listErase entries id) hnodup.2 hpres'
            refine ⟨out, ?_⟩
            simp only [selectLoop, if_neg hcap, hf, happ]
            exact hout
        | some r =>
            obtain ⟨out, hout⟩ := ih total builder
              (Logs.modify logs id (Status.Rejected r))
              (listErase entries id) hnodup.2 hpres'
            refine ⟨out, ?_⟩
            simp only [selectLoop, if_neg hcap, hf, happ]
            exact hout

/-- Anything in the final builder was either there initially or is a
fragment the ledger accepted: the loop appends only accepted fragments. -/
theorem selectLoop_builder_accepted {F : Type} (applyF : F → Option String)
    (date maxpb : Nat) (byTime : List FragmentId) :
    ∀ (total : Nat) (builder : List F) (logs : Logs)
      (entries : List (FragmentId × F))
      (out : List F × Logs × List FragmentId × List (FragmentId × F)),
      selectLoop applyF date maxpb byTime total builder logs entries = some out →
      ∀ g ∈ out.1, g ∈ builder ∨ applyF g = none := by
  induction byTime with
  | nil =>
      intro total builder logs entries out h g hg
      simp only [selectLoop] at h
      obtain rfl := Option.some.inj h
      exact Or.inl hg
  | cons id rest ih =>
      intro total builder logs entries out h g hg
      simp only [selectLoop] at h
      by_cases hcap : maxpb ≤ total
      · rw [if_pos hcap] at h
        obtain rfl := Option.some.inj h
        exact Or.inl hg
      · rw [if_neg hcap] at h
        cases hlk : listLookup entries id with
        | none => rw [hlk] at h; cases h
        | some fragment =>
            rw [hlk] at h
            simp only at h
            cases happ : applyF fragment with
            | none =>
                rw [happ] at h
                simp only at h
                rcases ih _ _ _ _ _ h g hg with hin | hacc
                · rcases List.mem_append.mp hin with hb | hone
                  · exact Or.inl hb
                  · obtain rfl := List.mem_singleton.mp hone
                    exact Or.inr happ
                · exact Or.inr hacc
            | some r =>
                rw [happ] at h
                simp only at h
                exact ih _ _ _ _ _ h g hg

/-- The FIFO view returned by the loop only holds identifiers of the
input FIFO view (the loop never enqueues). -/
theorem selectLoop_byTime_subset {F : Type} (applyF : F → Option String)
    (date maxpb : Nat) (byTime : List FragmentId) :
    ∀ (total : Nat) (builder : List F) (logs : Logs)
      (entries : List (FragmentId × F))
      (out : List F × Logs × List FragmentId × List (FragmentId × F)),
      selectLoop applyF date maxpb byTime total builder logs entries = some out →
      ∀ j ∈ out.2.2.1, j ∈ byTime := by
  induction byTime with
  | nil =>
      intro total builder logs entries out h j hj
      simp only [selectLoop] at h
      obtain rfl := Option.some.inj h
      simp at hj
  | cons id rest ih =>
      intro total builder logs entries out h j hj
      simp only [selectLoop] at h
      by_cases hcap : maxpb ≤ total
      · rw [if_pos hcap] at h
        obtain rfl := Option.some.inj h
        exact List.mem_cons_of_mem id hj
      · rw [if_neg hcap] at h
        cases hlk : listLookup entries id with
        | none => rw [hlk] at h; cases h
        | some fragment =>
            rw [hlk] at h
            simp only at h
            cases happ : applyF fragment with
            | none =>
                rw [happ] at h
                simp only at h
                exact List.mem_cons_of_mem id (ih _ _ _ _ _ h j hj)
            | some r =>
                rw [happ] at h
                simp only at h
                exact List.mem_cons_of_mem id (ih _ _ _ _ _ h j hj)

/-- In any run, a rejected fragment that the loop reaches — the accepted
count of the identifiers before it stays below the cap — is logged
`Rejected` with the rendered error, loses its pool entry, and is gone
from the FIFO view; the run itself completes. -/
theorem selectLoop_rejected_reached {F : Type} (applyF : F → Option String)
    (date maxpb : Nat) (frag : FragmentId → F) :
    ∀ (front : List FragmentId) (i₀ : FragmentId) (post : List FragmentId)
      (total : Nat) (builder : List F) (logs : Logs)
      (entries : List (FragmentId × F)) (reason : String),
      (front ++ i₀ :: post).Nodup →
      (entries.map Prod.fst).Nodup →
      (∀ id ∈ front ++ i₀ :: post, listLookup entries id = some (frag id)) →
      total + (front.filter (fun i => (applyF (frag i)).isNone)).length
        < maxpb →
      applyF (frag i₀) = some reason →
      ∃ out,
        selectLoop applyF date maxpb (front ++ i₀ :: post) total builder logs
            entries = some out ∧
        listLookup out.2.1 i₀ = some (Status.Rejected reason) ∧
        listLookup out.2.2.2 i₀ = none ∧
        i₀ ∉ out.2.2.1 := by
  intro front
  induction front with
  | nil =>
      intro i₀ post total builder logs entries reason hnodup hekeys hcons
        hreach hrej
      simp only [List.nil_append] at hnodup hcons ⊢
      simp only [List.nodup_cons] at hnodup
      have hlt : ¬ maxpb ≤ total := by
        simp at hreach
        omega
      have hlk := hcons i₀ (List.mem_cons_self _ _)
      have hpres : ∀ j ∈ post,
          ∃ g, listLookup (listErase entries i₀) j = some g := by
        intro j hj
        refine ⟨frag j, ?_⟩
        rw [listErase_lookup_ne entries i₀ j (fun e => hnodup.1 (e ▸ hj))]
        exact hcons j (List.mem_cons_of_mem i₀ hj)
      obtain ⟨out, hout⟩ := selectLoop_some applyF date maxpb post total
        builder (Logs.modify logs i₀ (Status.Rejected reason))
        (listErase entries i₀) hnodup.2 hpres
      refine ⟨out, ?_, ?_, ?_, ?_⟩
      · simp only [selectLoop, if_neg hlt, hlk, hrej]
        exact hout
      · rw [selectLoop_logs_frame applyF date maxpb post _ _ _ _ _ hout i₀
          hnodup.1]
        exact logsModify_lookup_self logs i₀ (Status.Rejected reason)
      · exact selectLoop_entries_frame applyF date maxpb post _ _ _ _ _ hout
          i₀ (listErase_lookup_self_of_nodup entries i₀ hekeys)
      · intro hmem
        exact hnodup.1
          (selectLoop_byTime_subset applyF date maxpb post _ _ _ _ _ hout
            i₀ hmem)
  | cons i front' ih =>
      intro i₀ post total builder logs entries reason hnodup hekeys hcons
        hreach hrej
      rw [List.cons_append] at hnodup hcons
      simp only [List.nodup_cons] at hnodup
      have hlt : ¬ maxpb ≤ total := by omega
      have hlki := hcons i (List.mem_cons_self _ _)
      have hcons' : ∀ j ∈ front' ++ i₀ :: post,
          listLookup (listErase entries i) j = some (frag j) := by
        intro j hj
        rw [listErase_lookup_ne entries i j (fun e => hnodup.1 (e ▸ hj))]
        exact hcons j (List.mem_cons_of_mem i hj)
      have hekeys' := listErase_keys_nodup entries i hekeys
      cases happ : applyF (frag i) with
      | none =>
          have hreach' : (total + 1)
              + (front'.filter (fun j => (applyF (frag j)).isNone)).length
                < maxpb := by
            rw [List.filter_cons] at hreach
            simp [happ] at hreach
            omega
          obtain ⟨out, hout, hlog, hent, hby⟩ :=
            ih i₀ post (total + 1) (builder ++ [frag i])
              (Logs.modify logs i (Status.InABlock date))
              (listErase entries i) reason hnodup.2 hekeys' hcons' hreach'
              hrej
          refine ⟨out, ?_, hlog, hent, hby⟩
          simp only [List.cons_append, selectLoop, if_neg hlt, hlki, happ]
          exact hout
      | some r =>
          have hreach' : total
              + (front'.filter (fun j => (applyF (frag j)).isNone)).length
                < maxpb := by
            rw [List.filter_cons] at hreach
            simp [happ] at hreach
            omega
          obtain ⟨out, hout, hlog, hent, hby⟩ :=
            ih i₀ post total builder
              (Logs.modify logs i (Status.Rejected r))
              (listErase entries i) reason hnodup.2 hekeys' hcons' hreach'
              hrej
          refine ⟨out, ?_, hlog, hent, hby⟩
          simp only [List.cons_append, selectLoop, if_neg hlt, hlki, happ]
          exact hout

/-- C5: in any `select` run, a fragment the ledger rejects during the run
— its position `front ++ i₀ :: post` in the FIFO view is reached, i.e.
the accepted count over `front` is still below `max_per_block` — is
logged `Rejected` with the rendered ledger error; the builder holds only
accepted fragments, so the rejected one is not emitted; and its pool
entry is gone — it was removed before `apply_fragment` was called and is
never re-enqueued. -/
theorem rejected_fragment_logged_not_emitted (F : Type)
    (applyF : F → Option String) (metadata : HeaderContentEvalContext)
    (K : Nat) (frag : FragmentId → F)
    (front : List FragmentId) (i₀ : FragmentId) (post : List FragmentId)
    (entries : List (FragmentId × F)) (logs : Logs) (reason : String)
    (hnodup : (front ++ i₀ :: post).Nodup)
    (hekeys : (entries.map Prod.fst).Nodup)
    (hcons : ∀ id ∈ front ++ i₀ :: post,
      listLookup entries id = some (frag id))
    (hreach : (front.filter (fun i => (applyF (frag i)).isNone)).length < K)
    (hrej : applyF (frag i₀) = some reason) :
    ∃ st' logs' pool',
      (OldestFirst.new K : OldestFirst F).select applyF metadata logs
          ⟨front ++ i₀ :: post, entries⟩
        = some (st', logs', pool') ∧
      listLookup logs' i₀ = some (Status.Rejected reason) ∧
      (∀ g ∈ st'.finalize, applyF g = none) ∧
      frag i₀ ∉ st'.finalize ∧
      listLookup pool'.entries i₀ = none ∧
      i₀ ∉ pool'.entries_by_time := by
  obtain ⟨out, hout, hlog, hent, hby⟩ :=
    selectLoop_rejected_reached applyF metadata.block_date K frag front i₀
      post 0 [] logs entries reason hnodup hekeys hcons
      (by simpa using hreach) hrej
  obtain ⟨builder', logs', byTime', entries'⟩ := out
  refine ⟨⟨builder', K⟩, logs', ⟨byTime', entries'⟩, ?_, hlog, ?_, ?_, hent,
    hby⟩
  · simp only [OldestFirst.select, OldestFirst.new, hout]
  · intro g hg
    simp only [OldestFirst.finalize] at hg
    rcases selectLoop_builder_accepted applyF metadata.block_date K _ _ _ _ _
      _ hout g hg with hin | hacc
    · cases hin
    · exact hacc
  · intro hmem
    simp only [OldestFirst.finalize] at hmem
    rcases selectLoop_builder_accepted applyF metadata.block_date K _ _ _ _ _
      _ hout (frag i₀) hmem with hin | hacc
    · cases hin
    · rw [hrej] at hacc
      cases hacc

/-- C5 witness: three fragments against cap one, so the pool exceeds
`max_per_block`; the first is rejected with reason `bad` (not counted
against the cap), the second is accepted, the third is cut off by the
cap break.  The rejected fragment is logged, not emitted, and gone from
the pool. -/
theorem rejected_fragment_logged_not_emitted_witness :
    ∃ st' logs' pool',
      (OldestFirst.new 1 : OldestFirst Nat).select
          (fun f => if f = 1 then some "bad" else none) ⟨4⟩
          [(1, Status.Pending), (2, Status.Pending), (3, Status.Pending)]
          ⟨[] ++ 1 :: [2, 3], [(1, 1), (2, 2), (3, 3)]⟩
        = some (st', logs', pool') ∧
      listLookup logs' 1 = some (Status.Rejected "bad") ∧
      (∀ g ∈ st'.finalize,
        (fun f => if f = 1 then some "bad" else none) g = none) ∧
      (fun i => i) 1 ∉ st'.finalize ∧
      listLookup pool'.entries 1 = none ∧
      1 ∉ pool'.entries_by_time :=
  rejected_fragment_logged_not_emitted Nat
    (fun f => if f = 1 then some "bad" else none) ⟨4⟩ 1
    (fun i => i) [] 1 [2, 3] [(1, 1), (2, 2), (3, 3)]
    [(1, Status.Pending), (2, Status.Pending), (3, Status.Pending)] "bad"
    (by decide) (by decide) (by decide) (by decide) (by decide)

/-- C7: when `select` stops because the accepted count reached
`max_per_block` while the FIFO view still held `d :: post`, the oldest
remaining identifier `d` has already been popped before the break: the
remaining FIFO view is `post` (so `d` is never yielded again), while `d`
keeps its entry in the pool's lookup map and its status log entry is
unchanged. -/
theorem cap_break_drops_popped_id (F : Type) (applyF : F → Option String)
    (metadata : HeaderContentEvalContext) (K : Nat) (frag : FragmentId → F)
    (front : List FragmentId) (d : FragmentId) (post : List FragmentId)
    (entries : List (FragmentId × F)) (logs : Logs)
    (hnodup : (front ++ d :: post).Nodup)
    (hcons : ∀ id ∈ front ++ d :: post, listLookup entries id = some (frag id))
    (hcount : (front.filter (fun i => (applyF (frag i)).isNone)).length = K)
    (hmin : ∀ k < front.length,
      ((front.take k).filter (fun i => (applyF (frag i)).isNone)).length < K) :
    ∃ st' logs' pool',
      (OldestFirst.new K : OldestFirst F).select applyF metadata logs
          ⟨front ++ d :: post, entries⟩
        = some (st', logs', pool') ∧
      pool'.entries_by_time = post ∧
      d ∉ pool'.entries_by_time ∧
      listLookup pool'.entries d = some (frag d) ∧
      listLookup logs' d = listLookup logs d := by
  obtain ⟨builder', logs', entries', hsel, hent, hlog⟩ :=
    selectLoop_cap_break applyF metadata.block_date K frag front d post 0 []
      logs entries hnodup hcons (by simpa using hcount)
      (by intro k hk; simpa using hmin k hk)
  refine ⟨⟨builder', K⟩, logs', ⟨post, entries'⟩, ?_, rfl, ?_, hent, hlog⟩
  · simp only [OldestFirst.select, OldestFirst.new, hsel]
  · have hdp : (d :: post).Nodup := hnodup.of_append_right
    exact (List.nodup_cons.mp hdp).1

/-- C7 witness: cap one, three accepted fragments; the first is selected,
the second is popped and dropped from the FIFO view at the break but
keeps its pool entry and `Pending` log entry, the third stays queued. -/
theorem cap_break_drops_popped_id_witness :
    ∃ st' logs' pool',
      (OldestFirst.new 1 : OldestFirst Nat).select (fun _ => none) ⟨4⟩
          [(10, Status.Pending), (20, Status.Pending), (30, Status.Pending)]
          ⟨[10] ++ 20 :: [30], [(10, 10), (20, 20), (30, 30)]⟩
        = some (st', logs', pool') ∧
      pool'.entries_by_time = [30] ∧
      20 ∉ pool'.entries_by_time ∧
      listLookup pool'.entries 20 = some 20 ∧
      listLookup logs' 20
        = listLookup
            [(10, Status.Pending), (20, Status.Pending), (30, Status.Pending)]
            20 :=
  cap_break_drops_popped_id Nat (fun _ => none) ⟨4⟩ 1 (fun i => i)
    [10] 20 [30] [(10, 10), (20, 20), (30, 30)]
    [(10, Status.Pending), (20, Status.Pending), (30, Status.Pending)]
    (by decide) (by decide) (by decide) (by decide)

end Jorm
